import Mathlib

/-!
Shallow embedding of the circulation core of `src/models/library_models.py`
(the `LibraryStore` class with its `Book`, `BorrowedBook` and `User` records):
registration, borrow with FIFO waitlists, return with automatic promotion,
and the undo stack.  Persistence (`_save`/`_load`) only serialises the state
and is omitted; dates are modelled as opaque strings.  Python integers are
modelled as `Int`; Python lists and deques as Lean lists (for the undo stack
the head of the list is the top of the stack; for a waitlist the head is the
front of the queue, so `popleft` drops the head, `appendleft` is `cons` and
`append` adds at the end).
-/

namespace Library

/-- The `Book` dataclass: identifier, descriptive fields, total and available
copy counts, and the FIFO waitlist (`reservations`, front at the head). -/
structure Book where
  id : String
  title : String
  author : String
  year : Int
  copies_total : Int
  copies_available : Int
  reservations : List String
  deriving DecidableEq

/-- The `BorrowedBook` dataclass: one loan record of a user, with the book id,
the date the loan was issued (`fecha`) and the quantity held. -/
structure BorrowedBook where
  book_id : String
  fecha : String
  quantity : Int
  deriving DecidableEq

/-- The `User` dataclass: identifier, descriptive fields and the list of loan
records. -/
structure User where
  id : String
  name : String
  email : String
  borrowed : List BorrowedBook
  deriving DecidableEq

/-- An entry of the undo stack.  The Python code stores dictionaries with an
`"op"` key of `"borrow"` or `"return"`; we embed them as a sum type. -/
inductive UndoEntry where
  | borrowE (user_id book_id : String)
  | returnE (user_id book_id fecha : String) (autoloan_to_next : Option String)
  deriving DecidableEq

/-- The result statuses of the store operations.  The Python code returns
human-readable strings; each constructor stands for one of those messages and
carries the data interpolated into it. -/
inductive Status where
  | userNotFound (user_id : String)
  | bookNotFound (book_id : String)
  | dupBook (book_id : String)
  | dupUser (user_id : String)
  | addedBook (title : String)
  | addedUser (name : String)
  | borrowOk (copies_available : Int)
  | alreadyQueued
  | queued (position : Nat)
  | noSuchLoan
  | returnOk (copies_available : Int) (autoloan : Option String) (poppedMissing : Bool)
  | nothingToUndo
  | undoneBorrow
  | undoBorrowFailed
  | undoneReturn
  | undoReturnFailed
  | undoReturnNoCopy
  deriving DecidableEq

/-- The in-memory state of a `LibraryStore`: the book list, the user list and
the undo stack (head of the list = top of the stack). -/
structure LibraryStore where
  books : List Book
  users : List User
  undo_stack : List UndoEntry
  deriving DecidableEq

/-- `find_book`: linear scan returning the first book with the given id. -/
def findBook : List Book → String → Option Book
  | [], _ => none
  | b :: bs, bid => if b.id = bid then some b else findBook bs bid

/-- `find_user`: linear scan returning the first user with the given id. -/
def findUser : List User → String → Option User
  | [], _ => none
  | u :: us, uid => if u.id = uid then some u else findUser us uid

/-- The scan `for bb in user.borrowed: if bb.book_id == book_id` used by
`borrow_book`, `return_book` and `undo_last`: first loan record for a book. -/
def findRec : List BorrowedBook → String → Option BorrowedBook
  | [], _ => none
  | r :: rs, bid => if r.book_id = bid then some r else findRec rs bid

/-- In-place mutation of the first book with a given id, as Python's aliasing
of the object returned by `find_book` achieves it. -/
def updBook : List Book → String → (Book → Book) → List Book
  | [], _, _ => []
  | b :: bs, bid, f => if b.id = bid then f b :: bs else b :: updBook bs bid f

/-- In-place mutation of the first user with a given id. -/
def updUser : List User → String → (User → User) → List User
  | [], _, _ => []
  | u :: us, uid, f => if u.id = uid then f u :: us else u :: updUser us uid f

/-- The shared "add or increment" loop of `borrow_book`, the promotion branch
of `return_book` and the restoration branch of `undo_last`: increment the
quantity of the first record for the book if one exists (leaving its `fecha`
unchanged), otherwise append a fresh record with quantity 1 and the given
date. -/
def incBorrow : List BorrowedBook → String → String → List BorrowedBook
  | [], bid, fecha => [⟨bid, fecha, 1⟩]
  | r :: rs, bid, fecha =>
    if r.book_id = bid then { r with quantity := r.quantity + 1 } :: rs
    else r :: incBorrow rs bid fecha

/-- The shared "decrement or remove" logic of `return_book` and `undo_last`:
decrement the quantity of the first record for the book, removing the record
when the decremented quantity is `≤ 0`. -/
def decBorrow : List BorrowedBook → String → List BorrowedBook
  | [], _ => []
  | r :: rs, bid =>
    if r.book_id = bid then
      if r.quantity - 1 ≤ 0 then rs else { r with quantity := r.quantity - 1 } :: rs
    else r :: decBorrow rs bid

/-- The `Book` dataclass constructor: `__post_init__` sets
`copies_available := copies_total`, and `reservations` defaults to an empty
deque. -/
def Book.create (id title author : String) (year copies_total : Int) : Book :=
  ⟨id, title, author, year, copies_total, copies_total, []⟩

/-- The `User` dataclass constructor: `borrowed` defaults to an empty list. -/
def User.create (id name email : String) : User :=
  ⟨id, name, email, []⟩

/-- `LibraryStore.add_book`: reject a duplicate id, otherwise append. -/
def add_book (s : LibraryStore) (book : Book) : Status × LibraryStore :=
  match findBook s.books book.id with
  | some _ => (.dupBook book.id, s)
  | none => (.addedBook book.title, { s with books := s.books ++ [book] })

/-- `LibraryStore.add_user`: reject a duplicate id, otherwise append. -/
def add_user (s : LibraryStore) (user : User) : Status × LibraryStore :=
  match findUser s.users user.id with
  | some _ => (.dupUser user.id, s)
  | none => (.addedUser user.name, { s with users := s.users ++ [user] })

/-- `LibraryStore.borrow_book`: resolve user then book; with a copy available,
decrement the count, add/increment the loan record and push a borrow entry;
with no copies, either report an existing queue position or append the user to
the waitlist (no undo entry in either waitlist case). -/
def borrow_book (s : LibraryStore) (user_id book_id fecha : String) :
    Status × LibraryStore :=
  match findUser s.users user_id, findBook s.books book_id with
  | none, _ => (.userNotFound user_id, s)
  | some _, none => (.bookNotFound book_id, s)
  | some _, some book =>
    if 0 < book.copies_available then
      (.borrowOk (book.copies_available - 1),
       { books := updBook s.books book_id
           (fun b => { b with copies_available := b.copies_available - 1 }),
         users := updUser s.users user_id
           (fun u => { u with borrowed := incBorrow u.borrowed book_id fecha }),
         undo_stack := .borrowE user_id book_id :: s.undo_stack })
    else if user_id ∈ book.reservations then
      (.alreadyQueued, s)
    else
      let books1 := updBook s.books book_id
        (fun b => { b with reservations := b.reservations ++ [user_id] })
      (.queued (book.reservations.length + 1), { s with books := books1 })

/-- `LibraryStore.return_book`: resolve user then book, require a loan record;
decrement/remove the record and increment the available count; if the waitlist
is non-empty, pop its head and, when that user still exists, immediately lend
the freed copy to them (their new record gets `fecha = now`); push a return
entry recording the returned record's `fecha` and the promoted user, if any. -/
def return_book (s : LibraryStore) (user_id book_id now : String) :
    Status × LibraryStore :=
  match findUser s.users user_id, findBook s.books book_id with
  | none, _ => (.userNotFound user_id, s)
  | some _, none => (.bookNotFound book_id, s)
  | some user, some book =>
    match findRec user.borrowed book_id with
    | none => (.noSuchLoan, s)
    | some bi =>
      let users1 := updUser s.users user_id
        (fun u => { u with borrowed := decBorrow u.borrowed book_id })
      match book.reservations with
      | [] =>
        (.returnOk (book.copies_available + 1) none false,
         { books := updBook s.books book_id
             (fun b => { b with copies_available := b.copies_available + 1 }),
           users := users1,
           undo_stack := .returnE user_id book_id bi.fecha none :: s.undo_stack })
      | next :: rest =>
        match findUser users1 next with
        | some _ =>
          (.returnOk (book.copies_available + 1 - 1) (some next) false,
           { books := updBook s.books book_id
               (fun b => { b with copies_available := b.copies_available + 1 - 1,
                                  reservations := rest }),
             users := updUser users1 next
               (fun u => { u with borrowed := incBorrow u.borrowed book_id now }),
             undo_stack := .returnE user_id book_id bi.fecha (some next) :: s.undo_stack })
        | none =>
          (.returnOk (book.copies_available + 1) none true,
           { books := updBook s.books book_id
               (fun b => { b with copies_available := b.copies_available + 1,
                                  reservations := rest }),
             users := users1,
             undo_stack := .returnE user_id book_id bi.fecha none :: s.undo_stack })

/-- The promotion-reversal step of `undo_last` on a return entry (the
`if next_user_id:` block): when a promoted user is recorded, still exists and
holds a record for the book, decrement/remove that record, push the id back
onto the front of the waitlist and increment the available count; otherwise
leave the state untouched. -/
def undoReturnReversal (s : LibraryStore) (book_id : String) (auto : Option String) :
    LibraryStore :=
  match auto with
  | none => s
  | some nid =>
    match findUser s.users nid with
    | none => s
    | some nu =>
      match findRec nu.borrowed book_id with
      | none => s
      | some _ =>
        { s with
          users := updUser s.users nid
            (fun u => { u with borrowed := decBorrow u.borrowed book_id }),
          books := updBook s.books book_id
            (fun b => { b with reservations := nid :: b.reservations,
                               copies_available := b.copies_available + 1 }) }

/-- `LibraryStore.undo_last`: with an empty stack report nothing-to-undo;
otherwise pop the top entry and reverse it.  A borrow entry is reversed by
decrementing/removing the loan record and incrementing the count, failing if
user, book or record is missing.  A return entry first reverses a recorded
promotion, then, when a copy is available, re-issues the original loan with
the stored `fecha`; otherwise it fails with no copy to restore.  The popped
entry is never re-pushed. -/
def undo_last (s : LibraryStore) : Status × LibraryStore :=
  match s.undo_stack with
  | [] => (.nothingToUndo, s)
  | e :: rest =>
    let s0 : LibraryStore := { s with undo_stack := rest }
    match e with
    | .borrowE uid bid =>
      match findUser s0.users uid, findBook s0.books bid with
      | some u, some _ =>
        match findRec u.borrowed bid with
        | some _ =>
          (.undoneBorrow,
           { s0 with
             users := updUser s0.users uid
               (fun v => { v with borrowed := decBorrow v.borrowed bid }),
             books := updBook s0.books bid
               (fun b => { b with copies_available := b.copies_available + 1 }) })
        | none => (.undoBorrowFailed, s0)
      | _, _ => (.undoBorrowFailed, s0)
    | .returnE uid bid fecha auto =>
      match findUser s0.users uid, findBook s0.books bid with
      | none, _ => (.undoReturnFailed, s0)
      | some _, none => (.undoReturnFailed, s0)
      | some _, some _ =>
        let s1 := undoReturnReversal s0 bid auto
        match findBook s1.books bid with
        | none => (.undoReturnFailed, s1)
        | some b1 =>
          if 0 < b1.copies_available then
            (.undoneReturn,
             { s1 with
               users := updUser s1.users uid
                 (fun v => { v with borrowed := incBorrow v.borrowed bid fecha }),
               books := updBook s1.books bid
                 (fun b => { b with copies_available := b.copies_available - 1 }) })
          else
            (.undoReturnNoCopy, s1)

/-- The store of a fresh process with no persisted state. -/
def initStore : LibraryStore := ⟨[], [], []⟩

/-- One application of a public mutating operation.  Registration steps build
the entities with the dataclass constructors; per the spec's data model a
registered book has `copiesTotal ≥ 0`. -/
inductive Step : LibraryStore → LibraryStore → Prop where
  | addBook (s : LibraryStore) (id title author : String) (year total : Int)
      (htotal : 0 ≤ total) :
      Step s (add_book s (Book.create id title author year total)).2
  | addUser (s : LibraryStore) (id name email : String) :
      Step s (add_user s (User.create id name email)).2
  | borrow (s : LibraryStore) (uid bid fecha : String) :
      Step s (borrow_book s uid bid fecha).2
  | ret (s : LibraryStore) (uid bid now : String) :
      Step s (return_book s uid bid now).2
  | undo (s : LibraryStore) : Step s (undo_last s).2

/-- States reachable from the valid initial (empty) store by the public
operations. -/
inductive Reachable : LibraryStore → Prop where
  | init : Reachable initStore
  | step {s t : LibraryStore} : Reachable s → Step s t → Reachable t

/-- Sum of the quantities of a user's loan records for one book. -/
def recSum : List BorrowedBook → String → Int
  | [], _ => 0
  | r :: rs, bid => (if r.book_id = bid then r.quantity else 0) + recSum rs bid

/-- Sum over all users of the recorded quantities for one book. -/
def sumLoans : List User → String → Int
  | [], _ => 0
  | u :: us, bid => recSum u.borrowed bid + sumLoans us bid

/-- The inductive invariant of reachable stores, over the book and user lists
(the undo stack carries no constraint): available counts are non-negative,
each book's available count plus all recorded quantities equals its total,
all recorded quantities are at least one, loan records only reference books
present in the catalog, book ids are unique and each user holds at most one
record per book. -/
structure Inv (bs : List Book) (us : List User) : Prop where
  avNonneg : ∀ b ∈ bs, 0 ≤ b.copies_available
  conserve : ∀ b ∈ bs, b.copies_available + sumLoans us b.id = b.copies_total
  qtyPos : ∀ u ∈ us, ∀ r ∈ u.borrowed, 1 ≤ r.quantity
  loansExist : ∀ bid, findBook bs bid = none → sumLoans us bid = 0
  booksNodup : (bs.map Book.id).Nodup
  recsNodup : ∀ u ∈ us, (u.borrowed.map BorrowedBook.book_id).Nodup

/-- A store with one single-copy book registered. -/
def storeA : LibraryStore :=
  (add_book initStore (Book.create "B001" "El Quijote" "Cervantes" 1605 1)).2

/-- `storeA` with two users registered. -/
def storeB : LibraryStore :=
  (add_user (add_user storeA (User.create "U001" "Ana" "ana@example.com")).2
    (User.create "U002" "Luis" "luis@example.com")).2

/-- `storeB` after `U001` borrows the only copy of `B001`. -/
def storeC : LibraryStore := (borrow_book storeB "U001" "B001" "d1").2

/-- `storeC` after `U002` asks for `B001` and is put on the waitlist. -/
def storeD : LibraryStore := (borrow_book storeC "U002" "B001" "d2").2

/-- A store whose undo stack holds a return entry while no copy is available:
used to exercise the failing branch of the undo of a return. -/
def storeE : LibraryStore :=
  ⟨[⟨"B001", "El Quijote", "Cervantes", 1605, 1, 0, []⟩],
   [⟨"U001", "Ana", "ana@example.com", []⟩],
   [.returnE "U001" "B001" "d0" none]⟩

/-! ### Lemmas about the list scans and first-match updates -/

theorem findBook_eq_none_iff {bs : List Book} {bid : String} :
    findBook bs bid = none ↔ ∀ b ∈ bs, b.id ≠ bid := by
  induction bs with
  | nil => simp [findBook]
  | cons b bs ih =>
    by_cases h : b.id = bid <;> simp [findBook, h, ih]

theorem findBook_some_id {bs : List Book} {bid : String} {b : Book}
    (h : findBook bs bid = some b) : b.id = bid := by
  induction bs with
  | nil => simp [findBook] at h
  | cons b' bs ih =>
    by_cases hb : b'.id = bid
    · simp only [findBook, if_pos hb, Option.some.injEq] at h
      exact h ▸ hb
    · exact ih (by simpa [findBook, hb] using h)

theorem findBook_some_mem {bs : List Book} {bid : String} {b : Book}
    (h : findBook bs bid = some b) : b ∈ bs := by
  induction bs with
  | nil => simp [findBook] at h
  | cons b' bs ih =>
    by_cases hb : b'.id = bid
    · simp [findBook, hb] at h; simp [h]
    · simp [findBook, hb] at h; exact List.mem_cons_of_mem _ (ih h)

theorem updBook_of_none {bs : List Book} {bid : String} {f : Book → Book}
    (h : findBook bs bid = none) : updBook bs bid f = bs := by
  induction bs with
  | nil => simp [updBook]
  | cons b bs ih =>
    by_cases hb : b.id = bid
    · simp [findBook, hb] at h
    · simp [findBook, hb] at h; simp [updBook, hb, ih h]

theorem findBook_updBook_self {bs : List Book} {bid : String} {f : Book → Book}
    (hf : ∀ b, (f b).id = b.id) :
    findBook (updBook bs bid f) bid = (findBook bs bid).map f := by
  induction bs with
  | nil => simp [findBook, updBook]
  | cons b bs ih =>
    by_cases hb : b.id = bid
    · simp [findBook, updBook, hb, hf]
    · simp [findBook, updBook, hb, ih]

theorem findBook_updBook_ne {bs : List Book} {bid bid' : String} {f : Book → Book}
    (hf : ∀ b, (f b).id = b.id) (h : bid' ≠ bid) :
    findBook (updBook bs bid f) bid' = findBook bs bid' := by
  induction bs with
  | nil => simp [updBook]
  | cons b bs ih =>
    by_cases hb : b.id = bid
    · have h1 : (f b).id ≠ bid' := by rw [hf, hb]; exact Ne.symm h
      simp [findBook, updBook, hb, h1, h, Ne.symm h]
    · by_cases hb' : b.id = bid' <;> simp [findBook, updBook, hb, hb', h, ih]

theorem updBook_map_id {bs : List Book} {bid : String} {f : Book → Book}
    (hf : ∀ b, (f b).id = b.id) :
    (updBook bs bid f).map Book.id = bs.map Book.id := by
  induction bs with
  | nil => simp [updBook]
  | cons b bs ih =>
    by_cases hb : b.id = bid <;> simp [updBook, hb, hf, ih]

theorem mem_updBook {bs : List Book} {bid : String} {f : Book → Book} {b' : Book}
    (h : b' ∈ updBook bs bid f) :
    b' ∈ bs ∨ ∃ b, findBook bs bid = some b ∧ b' = f b := by
  induction bs with
  | nil => simp [updBook] at h
  | cons b bs ih =>
    by_cases hb : b.id = bid
    · simp only [updBook, if_pos hb, List.mem_cons] at h
      rcases h with h | h
      · exact Or.inr ⟨b, by simp [findBook, hb], h⟩
      · exact Or.inl (List.mem_cons_of_mem _ h)
    · simp only [updBook, if_neg hb, List.mem_cons] at h
      rcases h with h | h
      · exact Or.inl (by simp [h])
      · rcases ih h with h' | ⟨b0, hb0, hfb⟩
        · exact Or.inl (List.mem_cons_of_mem _ h')
        · exact Or.inr ⟨b0, by simp [findBook, hb, hb0], hfb⟩

theorem mem_updBook_cases {bs : List Book} {bid : String} {f : Book → Book}
    {b0 b' : Book} (hnd : (bs.map Book.id).Nodup) (hfind : findBook bs bid = some b0)
    (h : b' ∈ updBook bs bid f) :
    b' = f b0 ∨ (b' ∈ bs ∧ b'.id ≠ bid) := by
  induction bs with
  | nil => simp [updBook] at h
  | cons b bs ih =>
    simp only [List.map_cons, List.nodup_cons] at hnd
    by_cases hb : b.id = bid
    · have hb0 : b0 = b := by
        simp only [findBook, if_pos hb, Option.some.injEq] at hfind
        exact hfind.symm
      simp only [updBook, if_pos hb, List.mem_cons] at h
      rcases h with h | h
      · exact Or.inl (hb0 ▸ h)
      · refine Or.inr ⟨List.mem_cons_of_mem _ h, ?_⟩
        intro hc
        exact hnd.1 (hb ▸ hc ▸ List.mem_map_of_mem Book.id h)
    · simp only [findBook, if_neg hb] at hfind
      simp only [updBook, if_neg hb, List.mem_cons] at h
      rcases h with h | h
      · exact Or.inr ⟨by simp [h], h ▸ hb⟩
      · rcases ih hnd.2 hfind h with h' | ⟨hm, hne⟩
        · exact Or.inl h'
        · exact Or.inr ⟨List.mem_cons_of_mem _ hm, hne⟩

theorem updBook_updBook {bs : List Book} {bid : String} {f g : Book → Book}
    (hf : ∀ b, (f b).id = b.id) :
    updBook (updBook bs bid f) bid g = updBook bs bid (fun b => g (f b)) := by
  induction bs with
  | nil => simp [updBook]
  | cons b bs ih =>
    by_cases hb : b.id = bid
    · simp [updBook, hb, hf]
    · simp [updBook, hb, ih]

theorem updBook_id_of {bs : List Book} {bid : String} {f : Book → Book} {b0 : Book}
    (hfind : findBook bs bid = some b0) (h : f b0 = b0) : updBook bs bid f = bs := by
  induction bs with
  | nil => simp [findBook] at hfind
  | cons b bs ih =>
    by_cases hb : b.id = bid
    · have hb0 : b0 = b := by
        simp only [findBook, if_pos hb, Option.some.injEq] at hfind
        exact hfind.symm
      simp [updBook, hb, hb0 ▸ h]
    · simp only [findBook, if_neg hb] at hfind
      simp [updBook, hb, ih hfind]

theorem findUser_eq_none_iff {us : List User} {uid : String} :
    findUser us uid = none ↔ ∀ u ∈ us, u.id ≠ uid := by
  induction us with
  | nil => simp [findUser]
  | cons u us ih =>
    by_cases h : u.id = uid <;> simp [findUser, h, ih]

theorem findUser_some_id {us : List User} {uid : String} {u : User}
    (h : findUser us uid = some u) : u.id = uid := by
  induction us with
  | nil => simp [findUser] at h
  | cons u' us ih =>
    by_cases hu : u'.id = uid
    · simp only [findUser, if_pos hu, Option.some.injEq] at h
      exact h ▸ hu
    · exact ih (by simpa [findUser, hu] using h)

theorem findUser_some_mem {us : List User} {uid : String} {u : User}
    (h : findUser us uid = some u) : u ∈ us := by
  induction us with
  | nil => simp [findUser] at h
  | cons u' us ih =>
    by_cases hu : u'.id = uid
    · simp [findUser, hu] at h; simp [h]
    · simp [findUser, hu] at h; exact List.mem_cons_of_mem _ (ih h)

theorem updUser_of_none {us : List User} {uid : String} {f : User → User}
    (h : findUser us uid = none) : updUser us uid f = us := by
  induction us with
  | nil => simp [updUser]
  | cons u us ih =>
    by_cases hu : u.id = uid
    · simp [findUser, hu] at h
    · simp [findUser, hu] at h; simp [updUser, hu, ih h]

theorem findUser_updUser_self {us : List User} {uid : String} {f : User → User}
    (hf : ∀ u, (f u).id = u.id) :
    findUser (updUser us uid f) uid = (findUser us uid).map f := by
  induction us with
  | nil => simp [findUser, updUser]
  | cons u us ih =>
    by_cases hu : u.id = uid
    · simp [findUser, updUser, hu, hf]
    · simp [findUser, updUser, hu, ih]

theorem findUser_updUser_ne {us : List User} {uid uid' : String} {f : User → User}
    (hf : ∀ u, (f u).id = u.id) (h : uid' ≠ uid) :
    findUser (updUser us uid f) uid' = findUser us uid' := by
  induction us with
  | nil => simp [updUser]
  | cons u us ih =>
    by_cases hu : u.id = uid
    · have h1 : (f u).id ≠ uid' := by rw [hf, hu]; exact Ne.symm h
      simp [findUser, updUser, hu, h1, h, Ne.symm h]
    · by_cases hu' : u.id = uid' <;> simp [findUser, updUser, hu, hu', h, ih]

theorem mem_updUser {us : List User} {uid : String} {f : User → User} {u' : User}
    (h : u' ∈ updUser us uid f) :
    u' ∈ us ∨ ∃ u, findUser us uid = some u ∧ u' = f u := by
  induction us with
  | nil => simp [updUser] at h
  | cons u us ih =>
    by_cases hu : u.id = uid
    · simp only [updUser, if_pos hu, List.mem_cons] at h
      rcases h with h | h
      · exact Or.inr ⟨u, by simp [findUser, hu], h⟩
      · exact Or.inl (List.mem_cons_of_mem _ h)
    · simp only [updUser, if_neg hu, List.mem_cons] at h
      rcases h with h | h
      · exact Or.inl (by simp [h])
      · rcases ih h with h' | ⟨u0, hu0, hfu⟩
        · exact Or.inl (List.mem_cons_of_mem _ h')
        · exact Or.inr ⟨u0, by simp [findUser, hu, hu0], hfu⟩

theorem updUser_updUser {us : List User} {uid : String} {f g : User → User}
    (hf : ∀ u, (f u).id = u.id) :
    updUser (updUser us uid f) uid g = updUser us uid (fun u => g (f u)) := by
  induction us with
  | nil => simp [updUser]
  | cons u us ih =>
    by_cases hu : u.id = uid
    · simp [updUser, hu, hf]
    · simp [updUser, hu, ih]

theorem updUser_id_of {us : List User} {uid : String} {f : User → User} {u0 : User}
    (hfind : findUser us uid = some u0) (h : f u0 = u0) : updUser us uid f = us := by
  induction us with
  | nil => simp [findUser] at hfind
  | cons u us ih =>
    by_cases hu : u.id = uid
    · have hu0 : u0 = u := by
        simp only [findUser, if_pos hu, Option.some.injEq] at hfind
        exact hfind.symm
      simp [updUser, hu, hu0 ▸ h]
    · simp only [findUser, if_neg hu] at hfind
      simp [updUser, hu, ih hfind]

theorem findRec_eq_none_iff {rs : List BorrowedBook} {bid : String} :
    findRec rs bid = none ↔ ∀ r ∈ rs, r.book_id ≠ bid := by
  induction rs with
  | nil => simp [findRec]
  | cons r rs ih =>
    by_cases h : r.book_id = bid <;> simp [findRec, h, ih]

theorem findRec_some_id {rs : List BorrowedBook} {bid : String} {r : BorrowedBook}
    (h : findRec rs bid = some r) : r.book_id = bid := by
  induction rs with
  | nil => simp [findRec] at h
  | cons r' rs ih =>
    by_cases hr : r'.book_id = bid
    · simp only [findRec, if_pos hr, Option.some.injEq] at h
      exact h ▸ hr
    · exact ih (by simpa [findRec, hr] using h)

theorem findRec_some_mem {rs : List BorrowedBook} {bid : String} {r : BorrowedBook}
    (h : findRec rs bid = some r) : r ∈ rs := by
  induction rs with
  | nil => simp [findRec] at h
  | cons r' rs ih =>
    by_cases hr : r'.book_id = bid
    · simp [findRec, hr] at h; simp [h]
    · simp [findRec, hr] at h; exact List.mem_cons_of_mem _ (ih h)

theorem decBorrow_of_none {rs : List BorrowedBook} {bid : String}
    (h : findRec rs bid = none) : decBorrow rs bid = rs := by
  induction rs with
  | nil => simp [decBorrow]
  | cons r rs ih =>
    by_cases hr : r.book_id = bid
    · simp [findRec, hr] at h
    · simp [findRec, hr] at h; simp [decBorrow, hr, ih h]

theorem recSum_incBorrow_self {rs : List BorrowedBook} {bid fecha : String} :
    recSum (incBorrow rs bid fecha) bid = recSum rs bid + 1 := by
  induction rs with
  | nil => simp [incBorrow, recSum]
  | cons r rs ih =>
    by_cases hr : r.book_id = bid
    · simp [incBorrow, recSum, hr]; omega
    · simp [incBorrow, recSum, hr, ih]

theorem recSum_incBorrow_ne {rs : List BorrowedBook} {bid bid' fecha : String}
    (h : bid' ≠ bid) :
    recSum (incBorrow rs bid fecha) bid' = recSum rs bid' := by
  induction rs with
  | nil => simp [incBorrow, recSum, Ne.symm h]
  | cons r rs ih =>
    by_cases hr : r.book_id = bid
    · have : r.book_id ≠ bid' := by rw [hr]; exact Ne.symm h
      simp [incBorrow, recSum, hr, this, Ne.symm h]
    · simp [incBorrow, recSum, hr, ih]

theorem recSum_decBorrow_self {rs : List BorrowedBook} {bid : String} {r : BorrowedBook}
    (hq : ∀ x ∈ rs, 1 ≤ x.quantity) (hr : findRec rs bid = some r) :
    recSum (decBorrow rs bid) bid = recSum rs bid - 1 := by
  induction rs with
  | nil => simp [findRec] at hr
  | cons x rs ih =>
    by_cases hx : x.book_id = bid
    · have hq1 : 1 ≤ x.quantity := hq x (by simp)
      by_cases hz : x.quantity - 1 ≤ 0
      · have : x.quantity = 1 := by omega
        simp [decBorrow, hx, hz, recSum, this]
      · simp [decBorrow, hx, hz, recSum]; omega
    · simp only [findRec, if_neg hx] at hr
      have hq' : ∀ y ∈ rs, 1 ≤ y.quantity := fun y hy => hq y (List.mem_cons_of_mem _ hy)
      simp [decBorrow, hx, recSum, ih hq' hr]

theorem recSum_decBorrow_ne {rs : List BorrowedBook} {bid bid' : String}
    (h : bid' ≠ bid) :
    recSum (decBorrow rs bid) bid' = recSum rs bid' := by
  induction rs with
  | nil => simp [decBorrow]
  | cons r rs ih =>
    by_cases hr : r.book_id = bid
    · have : r.book_id ≠ bid' := by rw [hr]; exact Ne.symm h
      by_cases hz : r.quantity - 1 ≤ 0 <;>
        simp [decBorrow, hr, hz, recSum, this, Ne.symm h]
    · simp [decBorrow, hr, recSum, ih]

theorem recSum_nonneg {rs : List BorrowedBook} {bid : String}
    (hq : ∀ r ∈ rs, 1 ≤ r.quantity) : 0 ≤ recSum rs bid := by
  induction rs with
  | nil => simp [recSum]
  | cons r rs ih =>
    have h1 : 1 ≤ r.quantity := hq r (by simp)
    have h2 : 0 ≤ recSum rs bid := ih fun y hy => hq y (List.mem_cons_of_mem _ hy)
    by_cases hr : r.book_id = bid <;> simp [recSum, hr] <;> omega

theorem incBorrow_qty {rs : List BorrowedBook} {bid fecha : String}
    (hq : ∀ r ∈ rs, 1 ≤ r.quantity) :
    ∀ r ∈ incBorrow rs bid fecha, 1 ≤ r.quantity := by
  induction rs with
  | nil => simp [incBorrow]
  | cons x rs ih =>
    intro r hr
    by_cases hx : x.book_id = bid
    · simp only [incBorrow, if_pos hx, List.mem_cons] at hr
      rcases hr with hr | hr
      · have := hq x (by simp); subst hr; simp; omega
      · exact hq r (List.mem_cons_of_mem _ hr)
    · simp only [incBorrow, if_neg hx, List.mem_cons] at hr
      rcases hr with hr | hr
      · exact hr ▸ hq x (by simp)
      · exact ih (fun y hy => hq y (List.mem_cons_of_mem _ hy)) r hr

theorem decBorrow_qty {rs : List BorrowedBook} {bid : String}
    (hq : ∀ r ∈ rs, 1 ≤ r.quantity) :
    ∀ r ∈ decBorrow rs bid, 1 ≤ r.quantity := by
  induction rs with
  | nil => simp [decBorrow]
  | cons x rs ih =>
    intro r hr
    by_cases hx : x.book_id = bid
    · by_cases hz : x.quantity - 1 ≤ 0
      · simp only [decBorrow, if_pos hx, if_pos hz] at hr
        exact hq r (List.mem_cons_of_mem _ hr)
      · simp only [decBorrow, if_pos hx, if_neg hz, List.mem_cons] at hr
        rcases hr with hr | hr
        · subst hr; simp; omega
        · exact hq r (List.mem_cons_of_mem _ hr)
    · simp only [decBorrow, if_neg hx, List.mem_cons] at hr
      rcases hr with hr | hr
      · exact hr ▸ hq x (by simp)
      · exact ih (fun y hy => hq y (List.mem_cons_of_mem _ hy)) r hr

theorem incBorrow_book_id_mem {rs : List BorrowedBook} {bid fecha : String}
    {b : BorrowedBook} (hb : b ∈ incBorrow rs bid fecha) :
    b.book_id = bid ∨ b.book_id ∈ rs.map BorrowedBook.book_id := by
  induction rs with
  | nil => simp [incBorrow] at hb; simp [hb]
  | cons y ys ihy =>
    by_cases hy : y.book_id = bid
    · simp only [incBorrow, if_pos hy, List.mem_cons] at hb
      rcases hb with hb | hb
      · subst hb; simp [hy]
      · simp only [List.map_cons, List.mem_cons]
        exact Or.inr (Or.inr (List.mem_map_of_mem _ hb))
    · simp only [incBorrow, if_neg hy, List.mem_cons] at hb
      rcases hb with hb | hb
      · simp [hb]
      · rcases ihy hb with h' | h'
        · exact Or.inl h'
        · simp only [List.map_cons, List.mem_cons]
          exact Or.inr (Or.inr h')

theorem incBorrow_map_nodup {rs : List BorrowedBook} {bid fecha : String}
    (hnd : (rs.map BorrowedBook.book_id).Nodup) :
    ((incBorrow rs bid fecha).map BorrowedBook.book_id).Nodup := by
  induction rs with
  | nil => simp [incBorrow]
  | cons x rs ih =>
    simp only [List.map_cons, List.nodup_cons] at hnd
    by_cases hx : x.book_id = bid
    · simpa [incBorrow, hx] using hnd
    · simp only [incBorrow, if_neg hx, List.map_cons, List.nodup_cons]
      refine ⟨?_, ih hnd.2⟩
      intro hc
      simp only [List.mem_map] at hc
      obtain ⟨b, hb, hbid⟩ := hc
      rcases incBorrow_book_id_mem hb with h' | h'
      · exact hx (hbid ▸ h')
      · exact hnd.1 (hbid ▸ h')

theorem decBorrow_map_sublist {rs : List BorrowedBook} {bid : String} :
    ((decBorrow rs bid).map BorrowedBook.book_id).Sublist
      (rs.map BorrowedBook.book_id) := by
  induction rs with
  | nil => simp [decBorrow]
  | cons x rs ih =>
    by_cases hx : x.book_id = bid
    · by_cases hz : x.quantity - 1 ≤ 0
      · simp only [decBorrow, if_pos hx, if_pos hz, List.map_cons]
        exact (List.Sublist.refl _).cons _
      · simp [decBorrow, hx, hz]
    · simp only [decBorrow, if_neg hx, List.map_cons]
      exact ih.cons₂ _

theorem dec_inc {rs : List BorrowedBook} {bid fecha : String}
    (hq : ∀ r ∈ rs, 1 ≤ r.quantity) :
    decBorrow (incBorrow rs bid fecha) bid = rs := by
  induction rs with
  | nil => simp [incBorrow, decBorrow]
  | cons x rs ih =>
    by_cases hx : x.book_id = bid
    · have h1 : 1 ≤ x.quantity := hq x (by simp)
      cases x with
      | mk b f q =>
        simp only at hx h1
        subst hx
        have h2 : ¬q + 1 - 1 ≤ 0 := by omega
        have h3 : q + 1 - 1 = q := by omega
        simp [incBorrow, decBorrow, h2, h3]
        omega
    · have hq' : ∀ y ∈ rs, 1 ≤ y.quantity := fun y hy => hq y (List.mem_cons_of_mem _ hy)
      simp [incBorrow, decBorrow, hx, ih hq']

theorem findRec_incBorrow_of_some {rs : List BorrowedBook} {bid fecha : String}
    {r : BorrowedBook} (h : findRec rs bid = some r) :
    findRec (incBorrow rs bid fecha) bid = some { r with quantity := r.quantity + 1 } := by
  induction rs with
  | nil => simp [findRec] at h
  | cons x rs ih =>
    by_cases hx : x.book_id = bid
    · simp only [findRec, if_pos hx, Option.some.injEq] at h
      subst h
      simp [incBorrow, findRec, hx]
    · simp only [findRec, if_neg hx] at h
      simp [incBorrow, findRec, hx, ih h]

theorem findRec_incBorrow_of_none {rs : List BorrowedBook} {bid fecha : String}
    (h : findRec rs bid = none) :
    findRec (incBorrow rs bid fecha) bid = some ⟨bid, fecha, 1⟩ := by
  induction rs with
  | nil => simp [incBorrow, findRec]
  | cons x rs ih =>
    by_cases hx : x.book_id = bid
    · simp [findRec, hx] at h
    · simp [findRec, hx] at h
      simp [incBorrow, findRec, hx, ih h]

theorem findRec_incBorrow_ne {rs : List BorrowedBook} {bid bid' fecha : String}
    (h : bid' ≠ bid) :
    findRec (incBorrow rs bid fecha) bid' = findRec rs bid' := by
  induction rs with
  | nil => simp [incBorrow, findRec, Ne.symm h]
  | cons x rs ih =>
    by_cases hx : x.book_id = bid
    · have : x.book_id ≠ bid' := by rw [hx]; exact Ne.symm h
      simp [incBorrow, findRec, hx, this, Ne.symm h]
    · by_cases hx' : x.book_id = bid' <;> simp [incBorrow, findRec, hx, hx', h, ih]

theorem findRec_decBorrow_of_some_big {rs : List BorrowedBook} {bid : String}
    {r : BorrowedBook} (h : findRec rs bid = some r) (h2 : ¬r.quantity - 1 ≤ 0) :
    findRec (decBorrow rs bid) bid = some { r with quantity := r.quantity - 1 } := by
  induction rs with
  | nil => simp [findRec] at h
  | cons x rs ih =>
    by_cases hx : x.book_id = bid
    · simp only [findRec, if_pos hx, Option.some.injEq] at h
      subst h
      simp [decBorrow, findRec, hx, h2]
    · simp only [findRec, if_neg hx] at h
      simp [decBorrow, findRec, hx, ih h]

theorem findRec_decBorrow_of_some_one {rs : List BorrowedBook} {bid : String}
    {r : BorrowedBook} (hnd : (rs.map BorrowedBook.book_id).Nodup)
    (h : findRec rs bid = some r) (h2 : r.quantity - 1 ≤ 0) :
    findRec (decBorrow rs bid) bid = none := by
  induction rs with
  | nil => simp [findRec] at h
  | cons x rs ih =>
    simp only [List.map_cons, List.nodup_cons] at hnd
    by_cases hx : x.book_id = bid
    · simp only [findRec, if_pos hx, Option.some.injEq] at h
      subst h
      simp only [decBorrow, if_pos hx, if_pos h2]
      rw [findRec_eq_none_iff]
      intro y hy hc
      exact hnd.1 (hx ▸ hc ▸ List.mem_map_of_mem BorrowedBook.book_id hy)
    · simp only [findRec, if_neg hx] at h
      simp [decBorrow, findRec, hx, ih hnd.2 h]

theorem findRec_inc_dec {rs : List BorrowedBook} {bid : String} {r : BorrowedBook}
    (hnd : (rs.map BorrowedBook.book_id).Nodup)
    (hq : ∀ x ∈ rs, 1 ≤ x.quantity) (h : findRec rs bid = some r) :
    findRec (incBorrow (decBorrow rs bid) bid r.fecha) bid = some r := by
  have hq1 : 1 ≤ r.quantity := hq r (findRec_some_mem h)
  by_cases h2 : r.quantity - 1 ≤ 0
  · have hqe : r.quantity = 1 := by omega
    rw [findRec_incBorrow_of_none (findRec_decBorrow_of_some_one hnd h h2)]
    have hid : r.book_id = bid := findRec_some_id h
    cases r with
    | mk b f q =>
      simp only at hid hqe
      simp [hid, hqe]
  · rw [findRec_incBorrow_of_some (findRec_decBorrow_of_some_big h h2)]
    have : r.quantity - 1 + 1 = r.quantity := by omega
    cases r with
    | mk b f q => simp only at this ⊢; simp [this]

theorem sumLoans_append {us : List User} {u : User} {bid : String} :
    sumLoans (us ++ [u]) bid = sumLoans us bid + recSum u.borrowed bid := by
  induction us with
  | nil => simp [sumLoans]
  | cons v us ih => simp [sumLoans, ih]; ring

theorem sumLoans_updUser {us : List User} {uid : String} {f : User → User} {u : User}
    {bid : String} (h : findUser us uid = some u) :
    sumLoans (updUser us uid f) bid
      = sumLoans us bid - recSum u.borrowed bid + recSum (f u).borrowed bid := by
  induction us with
  | nil => simp [findUser] at h
  | cons v us ih =>
    by_cases hv : v.id = uid
    · simp only [findUser, if_pos hv, Option.some.injEq] at h
      subst h
      simp [updUser, hv, sumLoans]; ring
    · simp only [findUser, if_neg hv] at h
      simp [updUser, hv, sumLoans, ih h]; ring

theorem sumLoans_nonneg {us : List User} {bid : String}
    (hq : ∀ u ∈ us, ∀ r ∈ u.borrowed, 1 ≤ r.quantity) : 0 ≤ sumLoans us bid := by
  induction us with
  | nil => simp [sumLoans]
  | cons u us ih =>
    have h1 : 0 ≤ recSum u.borrowed bid := recSum_nonneg (hq u (by simp))
    have h2 : 0 ≤ sumLoans us bid := ih fun v hv => hq v (List.mem_cons_of_mem _ hv)
    simp only [sumLoans]
    omega

theorem undoReturnReversal_stack {s : LibraryStore} {bid : String}
    {auto : Option String} :
    (undoReturnReversal s bid auto).undo_stack = s.undo_stack := by
  simp only [undoReturnReversal]
  split
  · rfl
  · split
    · rfl
    · split
      · rfl
      · rfl

/-! ### The claims -/

/-- C7: with an empty undo log, `undo_last` reports nothing-to-undo and
returns the store unchanged: no book, user, waitlist or undo-log mutation. -/
theorem undo_empty_log {s : LibraryStore} (hs : s.undo_stack = []) :
    undo_last s = (.nothingToUndo, s) := by
  simp [undo_last, hs]

/-- Witness for C7: the store with one registered book and an empty log. -/
theorem undo_empty_log_witness :
    undo_last storeA = (.nothingToUndo, storeA) :=
  undo_empty_log rfl

/-- C8: with a non-empty undo log, `undo_last` pops the top entry, and the
entry stays popped on every outcome (success or any failure), so the next
`undo_last` targets the previous entry. -/
theorem undo_consumes_entry {s : LibraryStore} {e : UndoEntry}
    {rest : List UndoEntry} (hs : s.undo_stack = e :: rest) :
    ((undo_last s).2).undo_stack = rest := by
  cases e with
  | borrowE uid bid =>
    simp only [undo_last, hs]
    cases hfu : findUser s.users uid with
    | none => simp [hfu]
    | some u =>
      cases hfb : findBook s.books bid with
      | none => simp [hfu, hfb]
      | some b =>
        cases hfr : findRec u.borrowed bid with
        | none => simp [hfu, hfb, hfr]
        | some r => simp [hfu, hfb, hfr]
  | returnE uid bid fecha auto =>
    simp only [undo_last, hs]
    cases hfu : findUser s.users uid with
    | none => simp [hfu]
    | some u =>
      cases hfb : findBook s.books bid with
      | none => simp [hfu, hfb]
      | some b =>
        simp only [hfu, hfb]
        cases hfb1 : findBook (undoReturnReversal { s with undo_stack := rest } bid auto).books bid with
        | none => simpa [hfb1] using undoReturnReversal_stack
        | some b1 =>
          by_cases hav : 0 < b1.copies_available <;>
            simpa [hfb1, hav] using undoReturnReversal_stack

/-- Witness for C8: undoing on a store whose log top is a borrow entry leaves
the log empty. -/
theorem undo_consumes_entry_witness :
    ((undo_last storeC).2).undo_stack = [] :=
  @undo_consumes_entry storeC (.borrowE "U001" "B001") [] rfl

/-- C9: a borrow by a user already on the book's waitlist, with no copy
available, reports already-queued and leaves the whole store unchanged. -/
theorem borrow_already_queued {s : LibraryStore} {M B d : String} {u : User}
    {b : Book} (hu : findUser s.users M = some u) (hb : findBook s.books B = some b)
    (hav : b.copies_available = 0) (hq : M ∈ b.reservations) :
    borrow_book s M B d = (.alreadyQueued, s) := by
  have h0 : ¬0 < b.copies_available := by omega
  simp [borrow_book, hu, hb, h0, hq]

/-- Witness for C9: `U002` is queued for `B001` in `storeD` and a second
borrow changes nothing. -/
theorem borrow_already_queued_witness :
    borrow_book storeD "U002" "B001" "d3" = (.alreadyQueued, storeD) :=
  borrow_already_queued (u := User.create "U002" "Luis" "luis@example.com")
    (b := ⟨"B001", "El Quijote", "Cervantes", 1605, 1, 0, ["U002"]⟩)
    rfl rfl rfl (by decide)

/-- C10: a borrow with no copy available by a user not yet on the waitlist is
queued even when that user already holds a loan record for the same book: the
user id is appended at the back of the waitlist, the reported position is the
new waitlist length, and users and undo log are untouched. -/
theorem borrow_queues_even_when_holding {s : LibraryStore} {M B d : String}
    {u : User} {b : Book} (hu : findUser s.users M = some u)
    (hb : findBook s.books B = some b) (hav : b.copies_available = 0)
    (hq : M ∉ b.reservations) (_hr : (findRec u.borrowed B).isSome) :
    (borrow_book s M B d).1 = .queued (b.reservations.length + 1) ∧
    (findBook (borrow_book s M B d).2.books B).map Book.reservations
      = some (b.reservations ++ [M]) ∧
    (borrow_book s M B d).2.users = s.users ∧
    (borrow_book s M B d).2.undo_stack = s.undo_stack := by
  have h0 : ¬0 < b.copies_available := by omega
  refine ⟨?_, ?_, ?_, ?_⟩ <;>
    simp only [borrow_book, hu, hb, if_neg h0, if_neg hq]
  rw [@findBook_updBook_self s.books B
    (fun x => { x with reservations := x.reservations ++ [M] }) (fun _ => rfl), hb]
  rfl

/-- Witness for C10: in `storeC` user `U001` holds the only copy of `B001`
and is still appended to its waitlist. -/
theorem borrow_queues_even_when_holding_witness :
    (borrow_book storeC "U001" "B001" "d3").1 = .queued 1 ∧
    (findBook (borrow_book storeC "U001" "B001" "d3").2.books "B001").map Book.reservations
      = some ["U001"] ∧
    (borrow_book storeC "U001" "B001" "d3").2.users = storeC.users ∧
    (borrow_book storeC "U001" "B001" "d3").2.undo_stack = storeC.undo_stack := by
  have h := borrow_queues_even_when_holding
    (s := storeC) (M := "U001") (B := "B001") (d := "d3")
    (u := ⟨"U001", "Ana", "ana@example.com", [⟨"B001", "d1", 1⟩]⟩)
    (b := ⟨"B001", "El Quijote", "Cervantes", 1605, 1, 0, []⟩)
    rfl rfl rfl (by decide) (by decide)
  simpa using h

/-- C5: a borrow by an existing user of an existing book with a copy available
reports success with the decremented count, decrements only that book's
available count, pushes exactly one borrow entry on the undo log, and adds or
increments the user's loan record: an existing record keeps its `fecha` and
gains one copy, otherwise a fresh record with the given date and quantity one
appears. -/
theorem borrow_success {s : LibraryStore} {M B d : String} {u : User} {b : Book}
    (hu : findUser s.users M = some u) (hb : findBook s.books B = some b)
    (hav : 0 < b.copies_available) :
    (borrow_book s M B d).1 = .borrowOk (b.copies_available - 1) ∧
    findBook (borrow_book s M B d).2.books B
      = some { b with copies_available := b.copies_available - 1 } ∧
    (borrow_book s M B d).2.undo_stack = .borrowE M B :: s.undo_stack ∧
    (∀ r, findRec u.borrowed B = some r →
      (findUser (borrow_book s M B d).2.users M).map (fun v => findRec v.borrowed B)
        = some (some { r with quantity := r.quantity + 1 })) ∧
    (findRec u.borrowed B = none →
      (findUser (borrow_book s M B d).2.users M).map (fun v => findRec v.borrowed B)
        = some (some ⟨B, d, 1⟩)) := by
  refine ⟨?_, ?_, ?_, ?_, ?_⟩
  · simp [borrow_book, hu, hb, if_pos hav]
  · simp only [borrow_book, hu, hb, if_pos hav]
    rw [@findBook_updBook_self s.books B
      (fun x => { x with copies_available := x.copies_available - 1 }) (fun _ => rfl), hb]
    rfl
  · simp [borrow_book, hu, hb, if_pos hav]
  · intro r hr
    simp only [borrow_book, hu, hb, if_pos hav]
    rw [@findUser_updUser_self s.users M
      (fun v => { v with borrowed := incBorrow v.borrowed B d }) (fun _ => rfl), hu]
    simp [findRec_incBorrow_of_some hr]
  · intro hr
    simp only [borrow_book, hu, hb, if_pos hav]
    rw [@findUser_updUser_self s.users M
      (fun v => { v with borrowed := incBorrow v.borrowed B d }) (fun _ => rfl), hu]
    simp [findRec_incBorrow_of_none hr]

/-- Witness for C5: `U001` borrows the one available copy of `B001`. -/
theorem borrow_success_witness :
    (borrow_book storeB "U001" "B001" "d1").1 = .borrowOk 0 ∧
    findBook (borrow_book storeB "U001" "B001" "d1").2.books "B001"
      = some ⟨"B001", "El Quijote", "Cervantes", 1605, 1, 0, []⟩ ∧
    (borrow_book storeB "U001" "B001" "d1").2.undo_stack = [.borrowE "U001" "B001"] ∧
    (findUser (borrow_book storeB "U001" "B001" "d1").2.users "U001").map
      (fun v => findRec v.borrowed "B001") = some (some ⟨"B001", "d1", 1⟩) := by
  have h := borrow_success (s := storeB) (M := "U001") (B := "B001") (d := "d1")
    (u := User.create "U001" "Ana" "ana@example.com")
    (b := Book.create "B001" "El Quijote" "Cervantes" 1605 1) rfl rfl (by decide)
  exact ⟨by simpa using h.1, by simpa using h.2.1, by simpa using h.2.2.1,
    by simpa using h.2.2.2.2 rfl⟩

/-- C6: when `undo_last` pops a return entry whose user and book exist and,
after the promotion-reversal step, the book still has no available copy, it
reports the no-copy undo failure and returns exactly the reversal-applied
state with the entry popped: the promotion reversal stays applied and the
original borrower's loan record is not restored. -/
theorem undo_return_no_copy {s : LibraryStore} {M B f : String} {a : Option String}
    {t : List UndoEntry} {c : Book}
    (hs : s.undo_stack = .returnE M B f a :: t)
    (hu : (findUser s.users M).isSome)
    (hb : (findBook s.books B).isSome)
    (h1 : findBook (undoReturnReversal { s with undo_stack := t } B a).books B = some c)
    (hav : c.copies_available = 0) :
    undo_last s = (.undoReturnNoCopy, undoReturnReversal { s with undo_stack := t } B a) := by
  obtain ⟨u, hu⟩ := Option.isSome_iff_exists.mp hu
  obtain ⟨b, hb⟩ := Option.isSome_iff_exists.mp hb
  have h0 : ¬0 < c.copies_available := by omega
  simp only [undo_last, hs, hu, hb, h1, if_neg h0]

/-- Witness for C6: in `storeE` the popped return entry has no promotion to
reverse and no copy is available, so the undo fails and only pops. -/
theorem undo_return_no_copy_witness :
    undo_last storeE = (.undoReturnNoCopy,
      undoReturnReversal { storeE with undo_stack := [] } "B001" none) :=
  @undo_return_no_copy storeE "U001" "B001" "d0" none []
    ⟨"B001", "El Quijote", "Cervantes", 1605, 1, 0, []⟩ rfl rfl rfl rfl rfl

/-! ### Preservation of the invariant by each operation -/

theorem sumLoans_inc_self {us : List User} {uid bid fecha : String} {u : User}
    (hu : findUser us uid = some u) :
    sumLoans
      (updUser us uid (fun v => { v with borrowed := incBorrow v.borrowed bid fecha })) bid
      = sumLoans us bid + 1 := by
  rw [sumLoans_updUser hu]
  dsimp only
  rw [recSum_incBorrow_self]
  omega

theorem sumLoans_inc_ne {us : List User} {uid bid fecha c : String} {u : User}
    (hu : findUser us uid = some u) (hc : c ≠ bid) :
    sumLoans
      (updUser us uid (fun v => { v with borrowed := incBorrow v.borrowed bid fecha })) c
      = sumLoans us c := by
  rw [sumLoans_updUser hu]
  dsimp only
  rw [recSum_incBorrow_ne hc]
  omega

theorem sumLoans_dec_self {us : List User} {uid bid : String} {u : User}
    {r : BorrowedBook} (hu : findUser us uid = some u)
    (hq : ∀ v ∈ us, ∀ x ∈ v.borrowed, 1 ≤ x.quantity)
    (hrec : findRec u.borrowed bid = some r) :
    sumLoans (updUser us uid (fun v => { v with borrowed := decBorrow v.borrowed bid })) bid
      = sumLoans us bid - 1 := by
  rw [sumLoans_updUser hu]
  dsimp only
  rw [recSum_decBorrow_self (hq u (findUser_some_mem hu)) hrec]
  omega

theorem sumLoans_dec_ne {us : List User} {uid bid c : String} {u : User}
    (hu : findUser us uid = some u) (hc : c ≠ bid) :
    sumLoans (updUser us uid (fun v => { v with borrowed := decBorrow v.borrowed bid })) c
      = sumLoans us c := by
  rw [sumLoans_updUser hu]
  dsimp only
  rw [recSum_decBorrow_ne hc]
  omega

theorem qtyPos_updUser {us : List User} {uid : String}
    {g : List BorrowedBook → List BorrowedBook}
    (hq : ∀ v ∈ us, ∀ r ∈ v.borrowed, 1 ≤ r.quantity)
    (hg : ∀ rs, (∀ r ∈ rs, 1 ≤ r.quantity) → ∀ r ∈ g rs, 1 ≤ r.quantity) :
    ∀ v ∈ updUser us uid (fun x => { x with borrowed := g x.borrowed }),
      ∀ r ∈ v.borrowed, 1 ≤ r.quantity := by
  intro v hv
  rcases mem_updUser hv with hm | ⟨u0, hu0, rfl⟩
  · exact hq v hm
  · exact hg _ (hq u0 (findUser_some_mem hu0))

theorem recsNodup_updUser {us : List User} {uid : String}
    {g : List BorrowedBook → List BorrowedBook}
    (hn : ∀ v ∈ us, (v.borrowed.map BorrowedBook.book_id).Nodup)
    (hg : ∀ rs, (rs.map BorrowedBook.book_id).Nodup → ((g rs).map BorrowedBook.book_id).Nodup) :
    ∀ v ∈ updUser us uid (fun x => { x with borrowed := g x.borrowed }),
      (v.borrowed.map BorrowedBook.book_id).Nodup := by
  intro v hv
  rcases mem_updUser hv with hm | ⟨u0, hu0, rfl⟩
  · exact hn v hm
  · exact hg _ (hn u0 (findUser_some_mem hu0))

theorem inv_lend {bs : List Book} {us : List User} {uid bid fecha : String}
    {u : User} {b : Book} {f : Book → Book}
    (hI : Inv bs us) (hu : findUser us uid = some u) (hb : findBook bs bid = some b)
    (hav : 0 < b.copies_available)
    (hfid : ∀ x, (f x).id = x.id)
    (hft : ∀ x, (f x).copies_total = x.copies_total)
    (hfav : ∀ x, (f x).copies_available = x.copies_available - 1) :
    Inv (updBook bs bid f)
      (updUser us uid (fun v => { v with borrowed := incBorrow v.borrowed bid fecha })) := by
  have hbid : b.id = bid := findBook_some_id hb
  refine ⟨?_, ?_, ?_, ?_, ?_, ?_⟩
  · intro b' hb'
    rcases mem_updBook_cases hI.booksNodup hb hb' with rfl | ⟨hm, _⟩
    · rw [hfav]; omega
    · exact hI.avNonneg b' hm
  · intro b' hb'
    rcases mem_updBook_cases hI.booksNodup hb hb' with rfl | ⟨hm, hne⟩
    · rw [hfav, hft, hfid, hbid, sumLoans_inc_self hu]
      have hcon := hI.conserve b (findBook_some_mem hb)
      rw [hbid] at hcon
      omega
    · rw [sumLoans_inc_ne hu hne]
      exact hI.conserve b' hm
  · exact qtyPos_updUser hI.qtyPos (fun rs h => incBorrow_qty h)
  · intro c hc
    have hcbid : c ≠ bid := by
      intro hcc; subst hcc
      rw [findBook_updBook_self hfid, hb] at hc
      simp at hc
    rw [findBook_updBook_ne hfid hcbid] at hc
    rw [sumLoans_inc_ne hu hcbid]
    exact hI.loansExist c hc
  · rw [updBook_map_id hfid]; exact hI.booksNodup
  · exact recsNodup_updUser hI.recsNodup (fun rs h => incBorrow_map_nodup h)

theorem inv_unlend {bs : List Book} {us : List User} {uid bid : String}
    {u : User} {b : Book} {r : BorrowedBook} {f : Book → Book}
    (hI : Inv bs us) (hu : findUser us uid = some u) (hb : findBook bs bid = some b)
    (hrec : findRec u.borrowed bid = some r)
    (hfid : ∀ x, (f x).id = x.id)
    (hft : ∀ x, (f x).copies_total = x.copies_total)
    (hfav : ∀ x, (f x).copies_available = x.copies_available + 1) :
    Inv (updBook bs bid f)
      (updUser us uid (fun v => { v with borrowed := decBorrow v.borrowed bid })) := by
  have hbid : b.id = bid := findBook_some_id hb
  refine ⟨?_, ?_, ?_, ?_, ?_, ?_⟩
  · intro b' hb'
    rcases mem_updBook_cases hI.booksNodup hb hb' with rfl | ⟨hm, _⟩
    · rw [hfav]
      have := hI.avNonneg b (findBook_some_mem hb)
      omega
    · exact hI.avNonneg b' hm
  · intro b' hb'
    rcases mem_updBook_cases hI.booksNodup hb hb' with rfl | ⟨hm, hne⟩
    · rw [hfav, hft, hfid, hbid, sumLoans_dec_self hu hI.qtyPos hrec]
      have hcon := hI.conserve b (findBook_some_mem hb)
      rw [hbid] at hcon
      omega
    · rw [sumLoans_dec_ne hu hne]
      exact hI.conserve b' hm
  · exact qtyPos_updUser hI.qtyPos (fun rs h => decBorrow_qty h)
  · intro c hc
    have hcbid : c ≠ bid := by
      intro hcc; subst hcc
      rw [findBook_updBook_self hfid, hb] at hc
      simp at hc
    rw [findBook_updBook_ne hfid hcbid] at hc
    rw [sumLoans_dec_ne hu hcbid]
    exact hI.loansExist c hc
  · rw [updBook_map_id hfid]; exact hI.booksNodup
  · exact recsNodup_updUser hI.recsNodup
      (fun rs h => List.Nodup.sublist decBorrow_map_sublist h)

theorem inv_promo {bs : List Book} {us : List User} {uid nid bid now : String}
    {u nu : User} {b : Book} {r : BorrowedBook} {f : Book → Book}
    (hI : Inv bs us) (hu : findUser us uid = some u) (hb : findBook bs bid = some b)
    (hrec : findRec u.borrowed bid = some r)
    (hnu : findUser
      (updUser us uid (fun v => { v with borrowed := decBorrow v.borrowed bid })) nid
      = some nu)
    (hfid : ∀ x, (f x).id = x.id)
    (hft : ∀ x, (f x).copies_total = x.copies_total)
    (hfav : ∀ x, (f x).copies_available = x.copies_available + 1 - 1) :
    Inv (updBook bs bid f)
      (updUser (updUser us uid (fun v => { v with borrowed := decBorrow v.borrowed bid }))
        nid (fun v => { v with borrowed := incBorrow v.borrowed bid now })) := by
  have hbid : b.id = bid := findBook_some_id hb
  have hq1 := @qtyPos_updUser us uid (fun rs => decBorrow rs bid)
    hI.qtyPos (fun rs h => decBorrow_qty h)
  have hn1 := @recsNodup_updUser us uid (fun rs => decBorrow rs bid)
    hI.recsNodup (fun rs h => List.Nodup.sublist decBorrow_map_sublist h)
  refine ⟨?_, ?_, ?_, ?_, ?_, ?_⟩
  · intro b' hb'
    rcases mem_updBook_cases hI.booksNodup hb hb' with rfl | ⟨hm, _⟩
    · rw [hfav]
      have := hI.avNonneg b (findBook_some_mem hb)
      omega
    · exact hI.avNonneg b' hm
  · intro b' hb'
    rcases mem_updBook_cases hI.booksNodup hb hb' with rfl | ⟨hm, hne⟩
    · rw [hfav, hft, hfid, hbid, sumLoans_inc_self hnu,
        sumLoans_dec_self hu hI.qtyPos hrec]
      have hcon := hI.conserve b (findBook_some_mem hb)
      rw [hbid] at hcon
      omega
    · rw [sumLoans_inc_ne hnu hne, sumLoans_dec_ne hu hne]
      exact hI.conserve b' hm
  · exact qtyPos_updUser hq1 (fun rs h => incBorrow_qty h)
  · intro c hc
    have hcbid : c ≠ bid := by
      intro hcc; subst hcc
      rw [findBook_updBook_self hfid, hb] at hc
      simp at hc
    rw [findBook_updBook_ne hfid hcbid] at hc
    rw [sumLoans_inc_ne hnu hcbid, sumLoans_dec_ne hu hcbid]
    exact hI.loansExist c hc
  · rw [updBook_map_id hfid]; exact hI.booksNodup
  · exact recsNodup_updUser hn1 (fun rs h => incBorrow_map_nodup h)

theorem inv_frame {bs : List Book} {us : List User} {bid : String} {f : Book → Book}
    (hI : Inv bs us)
    (hfid : ∀ x, (f x).id = x.id)
    (hft : ∀ x, (f x).copies_total = x.copies_total)
    (hfav : ∀ x, (f x).copies_available = x.copies_available) :
    Inv (updBook bs bid f) us := by
  refine ⟨?_, ?_, hI.qtyPos, ?_, ?_, hI.recsNodup⟩
  · intro b' hb'
    rcases mem_updBook hb' with hm | ⟨b0, hb0, rfl⟩
    · exact hI.avNonneg b' hm
    · rw [hfav]; exact hI.avNonneg b0 (findBook_some_mem hb0)
  · intro b' hb'
    rcases mem_updBook hb' with hm | ⟨b0, hb0, rfl⟩
    · exact hI.conserve b' hm
    · rw [hfav, hft, hfid]; exact hI.conserve b0 (findBook_some_mem hb0)
  · intro c hc
    by_cases hcb : c = bid
    · subst hcb
      cases hfb : findBook bs c with
      | none => exact hI.loansExist c hfb
      | some b0 => rw [findBook_updBook_self hfid, hfb] at hc; simp at hc
    · rw [findBook_updBook_ne hfid hcb] at hc
      exact hI.loansExist c hc
  · rw [updBook_map_id hfid]; exact hI.booksNodup

theorem recSum_pos_of_findRec {rs : List BorrowedBook} {bid : String} {r : BorrowedBook}
    (hq : ∀ x ∈ rs, 1 ≤ x.quantity) (h : findRec rs bid = some r) :
    1 ≤ recSum rs bid := by
  induction rs with
  | nil => simp [findRec] at h
  | cons x rs ih =>
    have hq' : ∀ y ∈ rs, 1 ≤ y.quantity := fun y hy => hq y (List.mem_cons_of_mem _ hy)
    by_cases hx : x.book_id = bid
    · have h1 : 1 ≤ x.quantity := hq x (by simp)
      have h2 : 0 ≤ recSum rs bid := recSum_nonneg hq'
      simp only [recSum, if_pos hx]
      omega
    · simp only [findRec, if_neg hx] at h
      have := ih hq' h
      simp only [recSum, if_neg hx]
      omega

theorem sumLoans_pos_of_mem {us : List User} {bid : String} {u : User}
    (hm : u ∈ us) (hq : ∀ v ∈ us, ∀ x ∈ v.borrowed, 1 ≤ x.quantity)
    (h : 1 ≤ recSum u.borrowed bid) : 1 ≤ sumLoans us bid := by
  induction us with
  | nil => simp at hm
  | cons v us ih =>
    have hq' : ∀ w ∈ us, ∀ x ∈ w.borrowed, 1 ≤ x.quantity :=
      fun w hw => hq w (List.mem_cons_of_mem _ hw)
    rcases List.mem_cons.mp hm with rfl | hm'
    · have : 0 ≤ sumLoans us bid := sumLoans_nonneg hq'
      simp only [sumLoans]
      omega
    · have h1 := ih hm' hq'
      have h2 : 0 ≤ recSum v.borrowed bid := recSum_nonneg (hq v (by simp))
      simp only [sumLoans]
      omega

theorem findUser_updUser_isSome {us : List User} {uid c : String} {f : User → User}
    (hf : ∀ u, (f u).id = u.id) (h : (findUser us c).isSome) :
    (findUser (updUser us uid f) c).isSome := by
  by_cases he : c = uid
  · subst he
    rw [findUser_updUser_self hf]
    cases hfu : findUser us c with
    | none => rw [hfu] at h; simp at h
    | some u => simp [hfu]
  · rw [findUser_updUser_ne hf he]
    exact h

theorem undoReturnReversal_findUser_isSome {s : LibraryStore} {bid c : String}
    {auto : Option String} (h : (findUser s.users c).isSome) :
    (findUser (undoReturnReversal s bid auto).users c).isSome := by
  cases auto with
  | none => exact h
  | some nid =>
    simp only [undoReturnReversal]
    split
    · exact h
    · split
      · exact h
      · exact findUser_updUser_isSome (fun _ => rfl) h

theorem inv_reversal {s : LibraryStore} {bid : String} {auto : Option String}
    (h : Inv s.books s.users) :
    Inv (undoReturnReversal s bid auto).books (undoReturnReversal s bid auto).users := by
  cases auto with
  | none => exact h
  | some nid =>
    simp only [undoReturnReversal]
    split
    · exact h
    · rename_i nu hnu
      split
      · exact h
      · rename_i r hrec
        cases hbk : findBook s.books bid with
        | none =>
          exfalso
          have h0 := h.loansExist bid hbk
          have h1 := recSum_pos_of_findRec (h.qtyPos nu (findUser_some_mem hnu)) hrec
          have h2 := sumLoans_pos_of_mem (findUser_some_mem hnu) h.qtyPos h1
          omega
        | some b =>
          exact inv_unlend h hnu hbk hrec (fun _ => rfl) (fun _ => rfl) (fun _ => rfl)

theorem inv_init : Inv initStore.books initStore.users := by
  refine ⟨?_, ?_, ?_, ?_, ?_, ?_⟩ <;> simp [initStore, sumLoans]

theorem inv_add_book {s : LibraryStore} {i t a : String} {y n : Int}
    (h : Inv s.books s.users) (hn : 0 ≤ n) :
    Inv (add_book s (Book.create i t a y n)).2.books
        (add_book s (Book.create i t a y n)).2.users := by
  simp only [add_book, Book.create]
  cases hf : findBook s.books i with
  | some b => exact h
  | none =>
    dsimp only
    refine ⟨?_, ?_, h.qtyPos, ?_, ?_, h.recsNodup⟩
    · intro b hb
      rcases List.mem_append.mp hb with hm | hm
      · exact h.avNonneg b hm
      · simp at hm; subst hm; simpa using hn
    · intro b hb
      rcases List.mem_append.mp hb with hm | hm
      · exact h.conserve b hm
      · simp at hm; subst hm
        have h0 := h.loansExist i hf
        simp [h0]
    · intro c hc
      apply h.loansExist
      rw [findBook_eq_none_iff] at hc ⊢
      intro b hb
      exact hc b (List.mem_append.mpr (Or.inl hb))
    · rw [List.map_append]
      rw [List.nodup_append]
      refine ⟨h.booksNodup, by simp, ?_⟩
      intro x hx hx'
      simp at hx'
      rw [findBook_eq_none_iff] at hf
      obtain ⟨b, hb, rfl⟩ := List.mem_map.mp hx
      exact hf b hb hx'

theorem inv_add_user {s : LibraryStore} {i nm e : String}
    (h : Inv s.books s.users) :
    Inv (add_user s (User.create i nm e)).2.books
        (add_user s (User.create i nm e)).2.users := by
  simp only [add_user, User.create]
  cases hf : findUser s.users i with
  | some u => exact h
  | none =>
    dsimp only
    have hsum : ∀ c, sumLoans (s.users ++ [⟨i, nm, e, []⟩]) c = sumLoans s.users c := by
      intro c
      rw [sumLoans_append]
      simp [recSum]
    refine ⟨h.avNonneg, ?_, ?_, ?_, h.booksNodup, ?_⟩
    · intro b hb
      rw [hsum]
      exact h.conserve b hb
    · intro u hu
      rcases List.mem_append.mp hu with hm | hm
      · exact h.qtyPos u hm
      · simp at hm; subst hm; simp
    · intro c hc
      rw [hsum]
      exact h.loansExist c hc
    · intro u hu
      rcases List.mem_append.mp hu with hm | hm
      · exact h.recsNodup u hm
      · simp at hm; subst hm; simp

theorem inv_borrow {s : LibraryStore} {uid bid fecha : String}
    (h : Inv s.books s.users) :
    Inv (borrow_book s uid bid fecha).2.books (borrow_book s uid bid fecha).2.users := by
  simp only [borrow_book]
  cases hu : findUser s.users uid with
  | none => exact h
  | some u =>
    cases hb : findBook s.books bid with
    | none => exact h
    | some b =>
      by_cases hav : 0 < b.copies_available
      · simp only [if_pos hav]
        exact inv_lend h hu hb hav (fun _ => rfl) (fun _ => rfl) (fun _ => rfl)
      · simp only [if_neg hav]
        by_cases hq : uid ∈ b.reservations
        · simp only [if_pos hq]
          exact h
        · simp only [if_neg hq]
          exact inv_frame h (fun _ => rfl) (fun _ => rfl) (fun _ => rfl)

theorem inv_return {s : LibraryStore} {uid bid now : String}
    (h : Inv s.books s.users) :
    Inv (return_book s uid bid now).2.books (return_book s uid bid now).2.users := by
  simp only [return_book]
  split
  · exact h
  · exact h
  · rename_i user book hu hb
    split
    · exact h
    · rename_i bi hrec
      split
      · exact inv_unlend h hu hb hrec (fun _ => rfl) (fun _ => rfl) (fun _ => rfl)
      · split
        · rename_i next rest hres nu hnu
          exact inv_promo h hu hb hrec hnu (fun _ => rfl) (fun _ => rfl) (fun _ => rfl)
        · exact inv_unlend h hu hb hrec (fun _ => rfl) (fun _ => rfl) (fun _ => rfl)

theorem inv_undo {s : LibraryStore} (h : Inv s.books s.users) :
    Inv (undo_last s).2.books (undo_last s).2.users := by
  simp only [undo_last]
  split
  · exact h
  · split
    · split
      · split
        · rename_i u b hu hb xr r hrec
          exact inv_unlend h hu hb hrec (fun _ => rfl) (fun _ => rfl) (fun _ => rfl)
        · exact h
      · exact h
    · split
      · exact h
      · exact h
      · rename_i rest e uid bid fecha auto hst xa xb u b hu hb
        have h1 := @inv_reversal { s with undo_stack := rest } bid auto h
        split
        · exact h1
        · rename_i b1 hb1
          split
          · rename_i hav
            have hus : (findUser
                (undoReturnReversal { s with undo_stack := rest } bid auto).users uid).isSome :=
              undoReturnReversal_findUser_isSome (by simp [hu])
            obtain ⟨u1, hu1⟩ := Option.isSome_iff_exists.mp hus
            exact inv_lend h1 hu1 hb1 hav (fun _ => rfl) (fun _ => rfl) (fun _ => rfl)
          · exact h1

theorem reachable_inv {s : LibraryStore} (h : Reachable s) : Inv s.books s.users := by
  induction h with
  | init => exact inv_init
  | step hr hstep ih =>
    cases hstep with
    | addBook i t a y n hn => exact inv_add_book ih hn
    | addUser i nm e => exact inv_add_user ih
    | borrow uid bid fecha => exact inv_borrow ih
    | ret uid bid now => exact inv_return ih
    | undo => exact inv_undo ih

/-- C1: conservation invariant.  In every store reachable from the empty
initial store by register/borrow/return/undo operations, every book satisfies
`0 ≤ copies_available ≤ copies_total`, and `copies_available` plus the sum of
all users' recorded loan quantities for that book equals `copies_total`. -/
theorem conservation_invariant {s : LibraryStore} (h : Reachable s) :
    ∀ b ∈ s.books, 0 ≤ b.copies_available ∧ b.copies_available ≤ b.copies_total ∧
      b.copies_available + sumLoans s.users b.id = b.copies_total := by
  have hI := reachable_inv h
  intro b hb
  have h1 := hI.avNonneg b hb
  have h2 := hI.conserve b hb
  have h3 := @sumLoans_nonneg s.users b.id hI.qtyPos
  exact ⟨h1, by omega, h2⟩

/-- Witness for C1, at the book `B001` of the reachable store `storeC`
(register book, register two users, one successful borrow). -/
theorem conservation_invariant_witness :
    0 ≤ (Book.mk "B001" "El Quijote" "Cervantes" 1605 1 0 []).copies_available ∧
    (Book.mk "B001" "El Quijote" "Cervantes" 1605 1 0 []).copies_available
      ≤ (Book.mk "B001" "El Quijote" "Cervantes" 1605 1 0 []).copies_total ∧
    (Book.mk "B001" "El Quijote" "Cervantes" 1605 1 0 []).copies_available
      + sumLoans storeC.users (Book.mk "B001" "El Quijote" "Cervantes" 1605 1 0 []).id
      = (Book.mk "B001" "El Quijote" "Cervantes" 1605 1 0 []).copies_total :=
  conservation_invariant
    (Reachable.step (Reachable.step (Reachable.step (Reachable.step Reachable.init
      (Step.addBook initStore "B001" "El Quijote" "Cervantes" 1605 1 (by decide)))
      (Step.addUser storeA "U001" "Ana" "ana@example.com"))
      (Step.addUser (add_user storeA (User.create "U001" "Ana" "ana@example.com")).2
        "U002" "Luis" "luis@example.com"))
      (Step.borrow storeB "U001" "B001" "d1"))
    (Book.mk "B001" "El Quijote" "Cervantes" 1605 1 0 []) (by decide)

/-- C2 counterexample: the round trip fails for a borrow that only queues.
In the reachable store `storeC` (a borrow entry already logged, no copy of
`B001` left), a borrow by the existing user `U001` appends to the waitlist and
logs nothing, so the following `undo_last` reverses the older borrow:
`B001`'s availability after the borrow/undo pair differs from before. -/
theorem borrow_undo_not_inverse :
    (findBook ((undo_last (borrow_book storeC "U001" "B001" "d2").2).2).books "B001").map
        Book.copies_available
      ≠ (findBook storeC.books "B001").map Book.copies_available := by
  decide

/-- C2 amended: the borrow/undo round trip holds for reachable states in which
the user and the book exist and a copy is available, so that the borrow
succeeds and logs an entry: `undo_last` after `borrow_book` then restores the
entire store, in particular the book's availability and the user's loan
record. -/
theorem borrow_undo_roundtrip {s : LibraryStore} {M B d : String} {u : User} {b : Book}
    (h : Reachable s) (hu : findUser s.users M = some u) (hb : findBook s.books B = some b)
    (hav : 0 < b.copies_available) :
    (undo_last (borrow_book s M B d).2).2 = s := by
  have hI := reachable_inv h
  have hq := hI.qtyPos u (findUser_some_mem hu)
  simp only [borrow_book, hu, hb, if_pos hav]
  have hg : findUser
      (updUser s.users M (fun v => { v with borrowed := incBorrow v.borrowed B d })) M
      = some { u with borrowed := incBorrow u.borrowed B d } := by
    rw [findUser_updUser_self
      (f := fun v => { v with borrowed := incBorrow v.borrowed B d }) (fun _ => rfl), hu]
    rfl
  have hfb : findBook
      (updBook s.books B (fun x => { x with copies_available := x.copies_available - 1 })) B
      = some { b with copies_available := b.copies_available - 1 } := by
    rw [findBook_updBook_self
      (f := fun x => { x with copies_available := x.copies_available - 1 }) (fun _ => rfl), hb]
    rfl
  obtain ⟨r', hr'⟩ : ∃ r', findRec (incBorrow u.borrowed B d) B = some r' := by
    cases hr0 : findRec u.borrowed B with
    | some r => exact ⟨_, findRec_incBorrow_of_some hr0⟩
    | none => exact ⟨_, findRec_incBorrow_of_none hr0⟩
  simp only [undo_last, hg, hfb, hr']
  rw [updBook_updBook
    (f := fun x => { x with copies_available := x.copies_available - 1 }) (fun _ => rfl)]
  rw [updUser_updUser
    (f := fun v => { v with borrowed := incBorrow v.borrowed B d }) (fun _ => rfl)]
  have hbb : ({ ({ b with copies_available := b.copies_available - 1 } : Book) with
      copies_available := ({ b with copies_available := b.copies_available - 1 } : Book).copies_available + 1 } : Book) = b := by
    cases b with
    | mk i t a y ct ca rv => simp
  have huu : ({ ({ u with borrowed := incBorrow u.borrowed B d } : User) with
      borrowed := decBorrow ({ u with borrowed := incBorrow u.borrowed B d } : User).borrowed B } : User) = u := by
    cases u with
    | mk i nm e rs =>
      simp only
      rw [dec_inc hq]
  rw [updBook_id_of hb hbb, updUser_id_of hu huu]

/-- Witness for C2's amended round trip: `U001` borrows the available copy of
`B001` in `storeB` and the undo restores `storeB` exactly. -/
theorem borrow_undo_roundtrip_witness :
    (undo_last (borrow_book storeB "U001" "B001" "d1").2).2 = storeB :=
  borrow_undo_roundtrip
    (Reachable.step (Reachable.step (Reachable.step Reachable.init
      (Step.addBook initStore "B001" "El Quijote" "Cervantes" 1605 1 (by decide)))
      (Step.addUser storeA "U001" "Ana" "ana@example.com"))
      (Step.addUser (add_user storeA (User.create "U001" "Ana" "ana@example.com")).2
        "U002" "Luis" "luis@example.com"))
    rfl rfl (by decide)

/-- C3: return/undo round trip without promotion.  In a reachable state where
the user holds a loan record for the book and the book's waitlist is empty,
`return_book` followed by `undo_last` restores the book's availability and the
user's loan record for that book, including the original issue date. -/
theorem return_undo_roundtrip {s : LibraryStore} {M B now : String} {u : User}
    {b : Book} {r : BorrowedBook}
    (h : Reachable s) (hu : findUser s.users M = some u) (hb : findBook s.books B = some b)
    (hr : findRec u.borrowed B = some r) (hw : b.reservations = []) :
    (findBook ((undo_last (return_book s M B now).2).2).books B).map Book.copies_available
      = some b.copies_available ∧
    (findUser ((undo_last (return_book s M B now).2).2).users M).map
        (fun v => findRec v.borrowed B)
      = some (some r) := by
  have hI := reachable_inv h
  have hq := hI.qtyPos u (findUser_some_mem hu)
  have hnd := hI.recsNodup u (findUser_some_mem hu)
  have hav := hI.avNonneg b (findBook_some_mem hb)
  simp only [return_book, hu, hb, hr, hw]
  have hg : findUser
      (updUser s.users M (fun v => { v with borrowed := decBorrow v.borrowed B })) M
      = some { u with borrowed := decBorrow u.borrowed B } := by
    rw [findUser_updUser_self
      (f := fun v => { v with borrowed := decBorrow v.borrowed B }) (fun _ => rfl), hu]
    rfl
  have hfb : findBook
      (updBook s.books B (fun x => { x with copies_available := x.copies_available + 1 })) B
      = some { b with copies_available := b.copies_available + 1 } := by
    rw [findBook_updBook_self
      (f := fun x => { x with copies_available := x.copies_available + 1 }) (fun _ => rfl), hb]
    rfl
  have hpos : (0:Int) < b.copies_available + 1 := by omega
  simp only [undo_last, undoReturnReversal, hg, hfb, if_pos hpos]
  constructor
  · rw [@findBook_updBook_self
      (updBook s.books B (fun x => { x with copies_available := x.copies_available + 1 })) B
      (fun x => { x with copies_available := x.copies_available - 1 }) (fun _ => rfl)]
    rw [hfb]
    simp
  · rw [@findUser_updUser_self
      (updUser s.users M (fun v => { v with borrowed := decBorrow v.borrowed B })) M
      (fun v => { v with borrowed := incBorrow v.borrowed B r.fecha }) (fun _ => rfl)]
    rw [hg]
    simp
    exact findRec_inc_dec hnd hq hr

/-- Witness for C3: `U001` returns `B001` in `storeC` (empty waitlist) and the
undo restores availability `0` and the loan record with date `d1`. -/
theorem return_undo_roundtrip_witness :
    (findBook ((undo_last (return_book storeC "U001" "B001" "now2").2).2).books "B001").map
        Book.copies_available = some 0 ∧
    (findUser ((undo_last (return_book storeC "U001" "B001" "now2").2).2).users "U001").map
        (fun v => findRec v.borrowed "B001")
      = some (some ⟨"B001", "d1", 1⟩) :=
  @return_undo_roundtrip storeC "U001" "B001" "now2"
    ⟨"U001", "Ana", "ana@example.com", [⟨"B001", "d1", 1⟩]⟩
    ⟨"B001", "El Quijote", "Cervantes", 1605, 1, 0, []⟩
    ⟨"B001", "d1", 1⟩
    (Reachable.step (Reachable.step (Reachable.step (Reachable.step Reachable.init
      (Step.addBook initStore "B001" "El Quijote" "Cervantes" 1605 1 (by decide)))
      (Step.addUser storeA "U001" "Ana" "ana@example.com"))
      (Step.addUser (add_user storeA (User.create "U001" "Ana" "ana@example.com")).2
        "U002" "Luis" "luis@example.com"))
      (Step.borrow storeB "U001" "B001" "d1"))
    rfl rfl rfl rfl

/-- C4: FIFO promotion on a successful return with a non-empty waitlist.  The
head of the waitlist is popped (the remaining waitlist is exactly its tail).
If the popped member still exists (looked up after the returner's record was
decremented), the availability nets to the pre-return value (incremented then
decremented again), their loan record is incremented or created with issue
date `now`, and the pushed return entry records them as the promoted member.
If the popped member no longer exists, the freed copy stays available, only
the returner's record changed, the entry records no promotion, and the popped
id is discarded, not requeued. -/
theorem fifo_promotion {s : LibraryStore} {M B now next : String} {u : User}
    {b : Book} {bi : BorrowedBook} {rest : List String}
    (hu : findUser s.users M = some u) (hb : findBook s.books B = some b)
    (hr : findRec u.borrowed B = some bi) (hw : b.reservations = next :: rest) :
    (∀ nu, findUser (updUser s.users M
        (fun v => { v with borrowed := decBorrow v.borrowed B })) next = some nu →
      (return_book s M B now).2.undo_stack
          = .returnE M B bi.fecha (some next) :: s.undo_stack ∧
      findBook (return_book s M B now).2.books B
          = some { b with copies_available := b.copies_available + 1 - 1,
                          reservations := rest } ∧
      (findUser (return_book s M B now).2.users next).map (fun v => findRec v.borrowed B)
          = some (match findRec nu.borrowed B with
              | some r0 => some { r0 with quantity := r0.quantity + 1 }
              | none => some ⟨B, now, 1⟩) ∧
      (return_book s M B now).1 = .returnOk (b.copies_available + 1 - 1) (some next) false) ∧
    (findUser (updUser s.users M
        (fun v => { v with borrowed := decBorrow v.borrowed B })) next = none →
      (return_book s M B now).2.undo_stack
          = .returnE M B bi.fecha none :: s.undo_stack ∧
      findBook (return_book s M B now).2.books B
          = some { b with copies_available := b.copies_available + 1,
                          reservations := rest } ∧
      (return_book s M B now).2.users
          = updUser s.users M (fun v => { v with borrowed := decBorrow v.borrowed B }) ∧
      (return_book s M B now).1 = .returnOk (b.copies_available + 1) none true) := by
  constructor
  · intro nu hnu
    refine ⟨?_, ?_, ?_, ?_⟩ <;> simp only [return_book, hu, hb, hr, hw, hnu]
    · rw [findBook_updBook_self
        (f := fun x => { x with copies_available := x.copies_available + 1 - 1,
                                reservations := rest }) (fun _ => rfl), hb]
      rfl
    · rw [findUser_updUser_self
        (f := fun v => { v with borrowed := incBorrow v.borrowed B now }) (fun _ => rfl), hnu]
      cases hr0 : findRec nu.borrowed B with
      | some r0 => simp [findRec_incBorrow_of_some hr0]
      | none => simp [findRec_incBorrow_of_none hr0]
  · intro hnu
    refine ⟨?_, ?_, ?_, ?_⟩ <;> simp only [return_book, hu, hb, hr, hw, hnu]
    rw [findBook_updBook_self
      (f := fun x => { x with copies_available := x.copies_available + 1,
                              reservations := rest }) (fun _ => rfl), hb]
    rfl

/-- Witness for C4: in `storeD`, `U001` returns `B001`, the queued `U002` is
promoted: waitlist emptied, availability back to 0, `U002` gets a record with
date `now1`, and the return entry records the promotion. -/
theorem fifo_promotion_witness :
    (return_book storeD "U001" "B001" "now1").2.undo_stack
        = [.returnE "U001" "B001" "d1" (some "U002"), .borrowE "U001" "B001"] ∧
    findBook (return_book storeD "U001" "B001" "now1").2.books "B001"
        = some ⟨"B001", "El Quijote", "Cervantes", 1605, 1, 0 + 1 - 1, []⟩ ∧
    (findUser (return_book storeD "U001" "B001" "now1").2.users "U002").map
        (fun v => findRec v.borrowed "B001")
        = some (some ⟨"B001", "now1", 1⟩) ∧
    (return_book storeD "U001" "B001" "now1").1
        = .returnOk (0 + 1 - 1) (some "U002") false := by
  have h := (@fifo_promotion storeD "U001" "B001" "now1" "U002"
    ⟨"U001", "Ana", "ana@example.com", [⟨"B001", "d1", 1⟩]⟩
    ⟨"B001", "El Quijote", "Cervantes", 1605, 1, 0, ["U002"]⟩
    ⟨"B001", "d1", 1⟩ []
    rfl rfl rfl rfl).1
    ⟨"U002", "Luis", "luis@example.com", []⟩ rfl
  simpa using h

end Library
